import Mathlib

/-!
Verification of the pagerduty-cli core against its specification.

The development shallowly embeds the Rust sources:
  - `src/v2/api.rs`: raw record models, the accumulation state
    (`PagerDutyState`) and the aggregation pass
    (`make_escalation_policies`);
  - `src/v2/mod.rs`: the public `EscalationPolicy` entity, its derived
    structural equality and its hand-written name-only ordering;
  - `src/output/export.rs`: the tfstate export mapping with duplicate
    detection;
  - `src/output/tree.rs`: the node-store/edge-map tree renderer;
  - `src/main.rs`: the include/exclude policy filter and the export
    command's output-writing tail.

Rust `BTreeMap<String, _>` values are modelled as association lists kept
sorted by key (`mapInsert` preserves sortedness), so that `.values()`
iteration order (ascending key order) is captured faithfully.  String
formatting (`format!`, `+=` accumulation) is modelled by `++` and a
recursive join.  Machine integers appearing here (`u8` escalation levels,
`usize` node ids, `u32` offsets) are only compared, never wrapped, so they
are modelled as `Nat`.
-/

/-! ## Model of `BTreeMap<String, α>` (sorted association list) -/

/-- Insert into a key-sorted association list, replacing an existing
binding for the same key; keys are compared with `Ord::cmp` as in
`BTreeMap::insert`. -/
def mapInsert {α : Type} : List (String × α) → String → α → List (String × α)
  | [], k, v => [(k, v)]
  | (k', v') :: rest, k, v =>
    match compare k k' with
    | .lt => (k, v) :: (k', v') :: rest
    | .eq => (k, v) :: rest
    | .gt => (k', v') :: mapInsert rest k v

/-- Lookup by key.  Models `BTreeMap::get`. -/
def mapFind? {α : Type} : List (String × α) → String → Option α
  | [], _ => none
  | (k', v') :: rest, k => if k = k' then some v' else mapFind? rest k

/-- Remove the binding for a key.  Models `BTreeMap::remove`. -/
def mapErase {α : Type} : List (String × α) → String → List (String × α)
  | [], _ => []
  | (k', v') :: rest, k => if k = k' then rest else (k', v') :: mapErase rest k

/-- The values of the map in ascending key order.
Models `BTreeMap::values` iteration. -/
def mapValues {α : Type} (m : List (String × α)) : List α :=
  m.map Prod.snd

/-! ## `src/v2/api.rs` — raw record models -/

/-- Raw user record (`UserModel`). -/
structure UserModel where
  name : String
  id : String
  self_ref : String
  html_url : String
  email : String
deriving DecidableEq

/-- A `{id}` reference to another record (`ModelReference`). -/
structure ModelReference where
  id : String
deriving DecidableEq

/-- Raw service record (`ServiceModel`). -/
structure ServiceModel where
  name : String
  id : String
  escalation_policy : ModelReference
deriving DecidableEq

/-- Raw escalation-policy record (`EscalationPolicyModel`). -/
structure EscalationPolicyModel where
  id : String
  description : Option String
  name : String
deriving DecidableEq

/-- Raw on-call row (`OnCallModel`).  `escalation_level` is a `u8` in the
source; it is only compared and ranged over, never subjected to wrapping
arithmetic, so `Nat` is a faithful model. -/
structure OnCallModel where
  escalation_policy : ModelReference
  escalation_level : Nat
  user : ModelReference
deriving DecidableEq

/-! ## `src/v2/mod.rs` — public aggregate entities -/

/-- Resolved user embedded in a level (`PagerDutyUser`). -/
structure PagerDutyUser where
  id : String
  name : String
  email : String
deriving DecidableEq

/-- One escalation level: the resolved users at a depth
(`PagerDutyUserGroups`). -/
structure PagerDutyUserGroups where
  users : List PagerDutyUser
  depth : Nat
deriving DecidableEq

/-- The public aggregate policy entity (`EscalationPolicy`).  Equality is
the derived structural one (`#[derive(PartialEq, Eq)]` in the source,
modelled by the derived `DecidableEq`); ordering is the separate
hand-written `cmp` below. -/
structure EscalationPolicy where
  id : String
  description : Option String
  policy_name : String
  oncall_groups : List PagerDutyUserGroups
  services : List String
deriving DecidableEq

/-- Hand-written `Ord for EscalationPolicy`: compares only `policy_name`
(`self.policy_name.cmp(&other.policy_name)`). -/
def EscalationPolicy.cmp (a b : EscalationPolicy) : Ordering :=
  compare a.policy_name b.policy_name

/-- The boolean "less or equal" induced by `EscalationPolicy.cmp`, the
order `Vec::sort` sorts by. -/
def policyLe (a b : EscalationPolicy) : Bool :=
  EscalationPolicy.cmp a b != Ordering.gt

/-- `policies.sort()` from `who_is_oncall`: stable sort by the `Ord`
instance, i.e. by policy name. -/
def sortPolicies (l : List EscalationPolicy) : List EscalationPolicy :=
  l.mergeSort policyLe

/-! ## `src/v2/api.rs` — accumulation state and aggregation -/

/-- The accumulation state (`PagerDutyState`): three id-keyed `BTreeMap`s
and a flat `Vec` of on-call rows. -/
structure PagerDutyState where
  users : List (String × UserModel)
  services : List (String × ServiceModel)
  escalation_policies : List (String × EscalationPolicyModel)
  oncalls : List OnCallModel
deriving DecidableEq

/-- `PagerDutyState::default()`: everything empty. -/
def PagerDutyState.empty : PagerDutyState :=
  { users := [], services := [], escalation_policies := [], oncalls := [] }

/-- `add_policy`: insert keyed by `policy.id`. -/
def PagerDutyState.add_policy (s : PagerDutyState) (policy : EscalationPolicyModel) :
    PagerDutyState :=
  { s with escalation_policies := mapInsert s.escalation_policies policy.id policy }

/-- `add_oncall`: unconditional `Vec::push`. -/
def PagerDutyState.add_oncall (s : PagerDutyState) (oncall : OnCallModel) : PagerDutyState :=
  { s with oncalls := s.oncalls ++ [oncall] }

/-- `add_user`: insert keyed by `user.id`. -/
def PagerDutyState.add_user (s : PagerDutyState) (user : UserModel) : PagerDutyState :=
  { s with users := mapInsert s.users user.id user }

/-- `add_service`: insert keyed by `service.id`. -/
def PagerDutyState.add_service (s : PagerDutyState) (service : ServiceModel) : PagerDutyState :=
  { s with services := mapInsert s.services service.id service }

/-- The inner loop of `make_escalation_policies` that collects the on-call
rows whose `escalation_policy.id` equals the policy id. -/
def oncallForEsc (oncalls : List OnCallModel) (esc_id : String) : List OnCallModel :=
  oncalls.filter (fun oncall => oncall.escalation_policy.id == esc_id)

/-- `oncall_for_esc.iter().map(|x| x.escalation_level).max().unwrap_or(1)`
from `make_escalation_policies`. -/
def maxDepthOf (oncall_for_esc : List OnCallModel) : Nat :=
  ((oncall_for_esc.map (fun x => x.escalation_level)).max?).getD 1

/-- The per-depth user resolution loop of `make_escalation_policies`: keep
rows at this depth whose user id resolves in the user map, in row order;
rows whose user is absent are skipped (`if let Some(user) = ...`). -/
def usersForDepth (users : List (String × UserModel)) (oncall_for_esc : List OnCallModel)
    (depth : Nat) : List PagerDutyUser :=
  oncall_for_esc.filterMap (fun oncall =>
    if oncall.escalation_level == depth then
      (mapFind? users oncall.user.id).map (fun user => ⟨user.id, user.name, user.email⟩)
    else none)

/-- The body of the `for esc_model in self.escalation_policies.values()`
loop of `make_escalation_policies`, producing one public policy. -/
def makeOnePolicy (s : PagerDutyState) (esc_model : EscalationPolicyModel) :
    EscalationPolicy :=
  let esc_id := esc_model.id
  let oncall_for_esc := oncallForEsc s.oncalls esc_id
  let max_depth := maxDepthOf oncall_for_esc
  let users := (List.range' 1 max_depth).map (fun depth =>
    PagerDutyUserGroups.mk (usersForDepth s.users oncall_for_esc depth) depth)
  let services := (mapValues s.services).filterMap (fun service =>
    if service.escalation_policy.id == esc_id then some service.name else none)
  { id := esc_id
    description := esc_model.description
    policy_name := esc_model.name
    oncall_groups := users
    services := services }

/-- `PagerDutyState::make_escalation_policies`: iterate the policy map's
values (ascending id order) and build each public policy. -/
def PagerDutyState.make_escalation_policies (s : PagerDutyState) : List EscalationPolicy :=
  (mapValues s.escalation_policies).map (makeOnePolicy s)

/-! ## `src/v2/api.rs` — accumulation as an operation sequence -/

/-- One record arriving from a decoded page, dispatched to the matching
`add_*` method. -/
inductive RawOp where
  | policy : EscalationPolicyModel → RawOp
  | oncall : OnCallModel → RawOp
  | user : UserModel → RawOp
  | service : ServiceModel → RawOp
deriving DecidableEq

/-- Dispatch one record to `add_policy` / `add_oncall` / `add_user` /
`add_service`. -/
def applyOp (s : PagerDutyState) : RawOp → PagerDutyState
  | .policy p => s.add_policy p
  | .oncall o => s.add_oncall o
  | .user u => s.add_user u
  | .service v => s.add_service v

/-- Feed a sequence of decoded records into the state in order. -/
def applyOps (s : PagerDutyState) (ops : List RawOp) : PagerDutyState :=
  ops.foldl applyOp s

/-- The policy record carried by an op, if any. -/
def opPolicy : RawOp → Option EscalationPolicyModel
  | .policy p => some p
  | _ => none

/-- The on-call record carried by an op, if any. -/
def opOncall : RawOp → Option OnCallModel
  | .oncall o => some o
  | _ => none

/-- The user record carried by an op, if any. -/
def opUser : RawOp → Option UserModel
  | .user u => some u
  | _ => none

/-- The service record carried by an op, if any. -/
def opService : RawOp → Option ServiceModel
  | .service v => some v
  | _ => none

/-! ## `src/output/export.rs` — tfstate export -/

/-- `TfStateExportData`: the name-to-id mapping plus the duplicate-name
list. -/
structure TfStateExportData where
  escalation_policies : List (String × String)
  duplicates : List String
deriving DecidableEq

/-- `TfStateExportData::default()`. -/
def TfStateExportData.empty : TfStateExportData :=
  { escalation_policies := [], duplicates := [] }

/-- `add_escalation_policy`: if the name is present with a different id,
drop the mapping entry and record the name as a duplicate (and return);
otherwise insert `name ↦ id`. -/
def TfStateExportData.add_escalation_policy (d : TfStateExportData)
    (policy : EscalationPolicy) : TfStateExportData :=
  match mapFind? d.escalation_policies policy.policy_name with
  | some value =>
    if value ≠ policy.id then
      { escalation_policies := mapErase d.escalation_policies policy.policy_name
        duplicates := d.duplicates ++ [policy.policy_name] }
    else
      { d with escalation_policies :=
          mapInsert d.escalation_policies policy.policy_name policy.id }
  | none =>
      { d with escalation_policies :=
          mapInsert d.escalation_policies policy.policy_name policy.id }

/-- Add a whole list of policies in order, as the `export` command's
`for policy in policies` loop does. -/
def exportAll (policies : List EscalationPolicy) : TfStateExportData :=
  policies.foldl TfStateExportData.add_escalation_policy TfStateExportData.empty

/-! ## `src/main.rs` — include/exclude policy filter -/

/-- The three-valued match outcome (`PolicyMatch`). -/
inductive PolicyMatch where
  | yes
  | no
  | notProvided
deriving DecidableEq

/-- `does_policy_match`: a compiled regex is modelled by its matching
predicate on the policy name, the only way the source uses it
(`exp.is_match(&policy.policy_name)`). -/
def does_policy_match (inputs : List (String → Bool)) (policy : EscalationPolicy) :
    PolicyMatch :=
  if !inputs.isEmpty then
    if inputs.any (fun exp => exp policy.policy_name) then .yes else .no
  else .notProvided

/-- `policy_should_be_included`: includes are consulted first and are
decisive when provided; otherwise excludes decide; otherwise pass. -/
def policy_should_be_included (includes_vec excludes_vec : List (String → Bool))
    (policy : EscalationPolicy) : Bool :=
  match does_policy_match includes_vec policy with
  | .yes => true
  | .no => false
  | .notProvided =>
    match does_policy_match excludes_vec policy with
    | .yes => false
    | .no => true
    | .notProvided => true

/-! ## `src/output/mod.rs` and `src/main.rs` — export output writing

`fs::write` is the filesystem boundary; it is passed in as an oracle
`fsWrite` giving the outcome of each attempted write. -/

/-- `write_file`: `-` prints to stdout and succeeds; any other path is
handed to `fs::write`, whose outcome the oracle supplies. -/
def write_file (fsWrite : String → String → Except String Unit)
    (path : String) (contents : String) : Except String Unit :=
  if path == "-" then Except.ok () else fsWrite path contents

/-- The tail of `export_escilation_policies`:
`output::write_file(dest, &output).ok();` — the `Result` is converted to
an `Option` and discarded. -/
def export_write_result (fsWrite : String → String → Except String Unit)
    (dest output : String) : Option Unit :=
  (write_file fsWrite dest output).toOption

/-- The process exit status of the `export` command path: after the
discarded write, `export_escilation_policies` returns `()` and `main`
returns `Ok(())`, so the process exits with status 0 unconditionally. -/
def export_exit_code (fsWrite : String → String → Except String Unit)
    (dest output : String) : Nat :=
  let _ := export_write_result fsWrite dest output
  0

/-! ## `src/output/tree.rs` — graph store and renderer

The source keeps nodes in a `BTreeMap<usize, Rc<Line>>` and children in a
`BTreeMap<usize, Vec<usize>>`, both only ever accessed by key, so they are
modelled as functions from ids.  `index_counter` allocates fresh ids.
String accumulation (`output_buffer += ...`) is modelled by `++` and the
recursive `joinStrings`.  `Line::print` recurses along child edges; the
recursion is measured by an explicit fuel which `render` seeds with
`index_counter`, an upper bound on the tree depth for every graph built
through the `add_line`/`connect_edges` interface (each child id is larger
than its parent's), so the fuel never runs out there. -/

/-- Concatenation of a list of strings in order. -/
def joinStrings : List String → String
  | [] => ""
  | s :: rest => s ++ joinStrings rest

/-- The node/edge store (`Graph`). -/
structure Graph where
  nodes : Nat → Option String
  edges : Nat → List Nat
  index_counter : Nat

/-- `Graph::default()`: no nodes, no edges, counter 0. -/
def Graph.empty : Graph :=
  { nodes := fun _ => none, edges := fun _ => [], index_counter := 0 }

/-- `Graph::add_line`: bump the counter, store the content under the new
id with an empty child list, return the id. -/
def Graph.add_line (g : Graph) (message : String) : Graph × Nat :=
  let id := g.index_counter + 1
  ({ nodes := fun i => if i = id then some message else g.nodes i
     edges := fun i => if i = id then [] else g.edges i
     index_counter := id }, id)

/-- `Graph::connect_edges`: append `child` to the parent's child list. -/
def Graph.connect_edges (g : Graph) (parent child : Nat) : Graph :=
  { g with edges := fun i => if i = parent then g.edges parent ++ [child] else g.edges i }

/-- `Line::print`: emit this node's line with the mid/last connector, then
the children with the extended indent, the last child flagged by
`idx == size - 1`. -/
def printLine (g : Graph) : Nat → Nat → String → Bool → String
  | 0, _, _, _ => ""
  | fuel + 1, id, pfx, is_last =>
    let content := (g.nodes id).getD ""
    let line :=
      if is_last then pfx ++ " └─ " ++ content ++ "\n"
      else pfx ++ " ├─ " ++ content ++ "\n"
    let child_pfx := if is_last then pfx ++ "   " else pfx ++ " │ "
    let edges := g.edges id
    let size := edges.length
    line ++ joinStrings (edges.enum.map
      (fun p => printLine g fuel p.2 child_pfx (p.1 == size - 1)))

/-- `TreePrinter`: the shared graph plus the root id list. -/
structure TreePrinter where
  graph : Graph
  roots : List Nat

/-- `TreePrinter::default()`. -/
def TreePrinter.empty : TreePrinter :=
  { graph := Graph.empty, roots := [] }

/-- `TreePrinter::add_line`: allocate a node and record it as a root. -/
def TreePrinter.add_line (t : TreePrinter) (line : String) : TreePrinter × Nat :=
  let r := t.graph.add_line line
  ({ graph := r.1, roots := t.roots ++ [r.2] }, r.2)

/-- `OutputLine::add_line` on the handle for node `parent`: allocate a
node and connect it under `parent`. -/
def addChildLine (t : TreePrinter) (parent : Nat) (message : String) : TreePrinter × Nat :=
  let r := t.graph.add_line message
  ({ graph := r.1.connect_edges parent r.2, roots := t.roots }, r.2)

/-- `TreePrinter::render`: print each root with empty indent, the last
root flagged by `idx == size - 1`. -/
def TreePrinter.render (t : TreePrinter) : String :=
  let size := t.roots.length
  joinStrings (t.roots.enum.map
    (fun p => printLine t.graph t.graph.index_counter p.2 "" (p.1 == size - 1)))

/-! ## Specification-side tree renderer

These definitions follow the words of the specification, not the source:
a forest of labelled ordered trees, rendered so that a node carries the
"last" connector exactly when it is the final child of its parent (or the
final root), and the indent carries one blank segment per ancestor that
was a last sibling and one vertical-bar segment per ancestor that was
not.  The refinement theorem for the renderer proves the source graph
machinery equal to this renderer on every forest built through the
handle interface. -/

/-- A labelled ordered tree. -/
inductive LTree where
  | node : String → List LTree → LTree

mutual
/-- Number of nodes of a tree. -/
def LTree.size : LTree → Nat
  | .node _ children => 1 + sizeForest children
/-- Number of nodes of a forest. -/
def sizeForest : List LTree → Nat
  | [] => 0
  | c :: rest => LTree.size c + sizeForest rest
end

/-- Indent segment contributed by one ancestor: blank if that ancestor was
a last sibling, a continuation bar otherwise. -/
def contSegment (ancestor_was_last : Bool) : String :=
  if ancestor_was_last then "   " else " │ "

/-- Indent accumulated from the ancestor last-sibling flags, outermost
first. -/
def pfxOfAncestors : List Bool → String
  | [] => ""
  | b :: rest => contSegment b ++ pfxOfAncestors rest

mutual
/-- Render a node given its ancestors' last-sibling flags and its own
last-sibling flag, then its children depth-first in insertion order. -/
def specLines : List Bool → Bool → LTree → String
  | anc, is_last, .node label children =>
    pfxOfAncestors anc ++ (if is_last then " └─ " else " ├─ ") ++ label ++ "\n"
      ++ specChildren (anc ++ [is_last]) children
/-- Render a sibling list; the final element — and only it — is rendered
as "last". -/
def specChildren : List Bool → List LTree → String
  | _, [] => ""
  | anc, [c] => specLines anc true c
  | anc, c :: c' :: rest => specLines anc false c ++ specChildren anc (c' :: rest)
end

/-- Render a forest: roots in order, the final root — and only it —
rendered as "last", with no ancestors. -/
def specForest : List LTree → String
  | [] => ""
  | [t] => specLines [] true t
  | t :: t' :: rest => specLines [] false t ++ specForest (t' :: rest)

/-! ## Building a forest through the handle interface -/

mutual
/-- Build one tree into the printer: the node itself via
`TreePrinter::add_line` (for a root) or `OutputLine::add_line` (under a
parent handle), then its children left to right under the new handle. -/
def buildNode (parent : Option Nat) (tp : TreePrinter) : LTree → TreePrinter
  | .node label children =>
    let r := match parent with
      | none => tp.add_line label
      | some p => addChildLine tp p label
    buildChildren r.2 r.1 children
/-- Build a sibling list left to right under a parent handle. -/
def buildChildren (parent : Nat) (tp : TreePrinter) : List LTree → TreePrinter
  | [] => tp
  | c :: rest => buildChildren parent (buildNode (some parent) tp c) rest
end

/-- Build every tree of a forest as a root, in order. -/
def buildRoots (tp : TreePrinter) : List LTree → TreePrinter
  | [] => tp
  | t :: rest => buildRoots (buildNode none tp t) rest

/-- Build a forest into a fresh printer. -/
def buildForest (f : List LTree) : TreePrinter :=
  buildRoots TreePrinter.empty f

/-! ## Lemmas about the association-list map model -/

theorem compare_ne_of_gt {k p : String} (h : compare k p = Ordering.gt) : k ≠ p := by
  intro hc
  rw [compare_eq_iff_eq.mpr hc] at h
  cases h

theorem mapFind?_insert_self {α : Type} (m : List (String × α)) (k : String) (v : α) :
    mapFind? (mapInsert m k v) k = some v := by
  induction m with
  | nil => simp [mapInsert, mapFind?]
  | cons ep rest ih =>
    obtain ⟨k', v'⟩ := ep
    cases hcmp : compare k k' with
    | lt => simp [mapInsert, hcmp, mapFind?]
    | eq => simp [mapInsert, hcmp, mapFind?]
    | gt =>
      have hne : k ≠ k' := compare_ne_of_gt hcmp
      simp [mapInsert, hcmp, mapFind?, hne, ih]

theorem mapFind?_insert_ne {α : Type} (m : List (String × α)) (k : String) (v : α)
    (k'' : String) (h : k'' ≠ k) :
    mapFind? (mapInsert m k v) k'' = mapFind? m k'' := by
  induction m with
  | nil => simp [mapInsert, mapFind?, h]
  | cons ep rest ih =>
    obtain ⟨k', v'⟩ := ep
    cases hcmp : compare k k' with
    | lt => simp [mapInsert, hcmp, mapFind?, h]
    | eq =>
      have heq : k = k' := compare_eq_iff_eq.mp hcmp
      subst heq
      simp [mapInsert, hcmp, mapFind?, h]
    | gt => simp [mapInsert, hcmp, mapFind?, ih]

theorem mem_mapInsert {α : Type} (m : List (String × α)) (k : String) (v : α)
    (e : String × α) (h : e ∈ mapInsert m k v) : e = (k, v) ∨ e ∈ m := by
  induction m with
  | nil =>
    simp only [mapInsert, List.mem_singleton] at h
    exact Or.inl h
  | cons ep rest ih =>
    obtain ⟨k', v'⟩ := ep
    cases hcmp : compare k k' with
    | lt =>
      simp only [mapInsert, hcmp, List.mem_cons] at h
      rcases h with h | h | h
      · exact Or.inl h
      · exact Or.inr (by rw [h]; exact List.mem_cons_self _ _)
      · exact Or.inr (List.mem_cons_of_mem _ h)
    | eq =>
      simp only [mapInsert, hcmp, List.mem_cons] at h
      rcases h with h | h
      · exact Or.inl h
      · exact Or.inr (List.mem_cons_of_mem _ h)
    | gt =>
      simp only [mapInsert, hcmp, List.mem_cons] at h
      rcases h with h | h
      · exact Or.inr (by rw [h]; exact List.mem_cons_self _ _)
      · rcases ih h with h' | h'
        · exact Or.inl h'
        · exact Or.inr (List.mem_cons_of_mem _ h')

theorem mapInsert_sorted {α : Type} (m : List (String × α)) (k : String) (v : α)
    (hs : m.Pairwise (fun a b => a.1 < b.1)) :
    (mapInsert m k v).Pairwise (fun a b => a.1 < b.1) := by
  induction m with
  | nil => simp [mapInsert]
  | cons ep rest ih =>
    obtain ⟨k', v'⟩ := ep
    rw [List.pairwise_cons] at hs
    obtain ⟨hbound, hrest⟩ := hs
    cases hcmp : compare k k' with
    | lt =>
      have hlt : k < k' := compare_lt_iff_lt.mp hcmp
      simp only [mapInsert, hcmp]
      refine List.Pairwise.cons ?_ (List.Pairwise.cons hbound hrest)
      intro e he
      rcases List.mem_cons.mp he with he' | he'
      · rw [he']
        exact hlt
      · exact lt_trans hlt (hbound e he')
    | eq =>
      have heq : k = k' := compare_eq_iff_eq.mp hcmp
      subst heq
      simp only [mapInsert, hcmp]
      exact List.Pairwise.cons hbound hrest
    | gt =>
      have hgt : k' < k := compare_gt_iff_gt.mp hcmp
      simp only [mapInsert, hcmp]
      refine List.Pairwise.cons ?_ (ih hrest)
      intro e he
      rcases mem_mapInsert rest k v e he with h' | h'
      · rw [h']
        exact hgt
      · exact hbound e h'

theorem mapFind?_erase_ne {α : Type} (m : List (String × α)) (k : String)
    (k'' : String) (h : k'' ≠ k) :
    mapFind? (mapErase m k) k'' = mapFind? m k'' := by
  induction m with
  | nil => rfl
  | cons ep rest ih =>
    obtain ⟨k', v'⟩ := ep
    by_cases heq : k = k'
    · subst heq
      simp [mapErase, mapFind?, h]
    · simp only [mapErase, if_neg heq, mapFind?]
      by_cases h2 : k'' = k'
      · simp only [if_pos h2]
      · simp only [if_neg h2, ih]

theorem mapFind?_eq_none_of_forall_ne {α : Type} (m : List (String × α)) (k : String)
    (h : ∀ e ∈ m, e.1 ≠ k) : mapFind? m k = none := by
  induction m with
  | nil => rfl
  | cons ep rest ih =>
    obtain ⟨k', v'⟩ := ep
    have h1 : k' ≠ k := h (k', v') (List.mem_cons_self _ _)
    have h2 : k ≠ k' := fun hc => h1 hc.symm
    simp only [mapFind?, if_neg h2]
    exact ih (fun e he => h e (List.mem_cons_of_mem _ he))

theorem mapErase_sublist {α : Type} (m : List (String × α)) (k : String) :
    (mapErase m k).Sublist m := by
  induction m with
  | nil => exact List.Sublist.refl _
  | cons ep rest ih =>
    obtain ⟨k', v'⟩ := ep
    by_cases heq : k = k'
    · simp only [mapErase, if_pos heq]
      exact List.sublist_cons_self _ _
    · simp only [mapErase, if_neg heq]
      exact List.Sublist.cons₂ _ ih

theorem mapErase_sorted {α : Type} (m : List (String × α)) (k : String)
    (hs : m.Pairwise (fun a b => a.1 < b.1)) :
    (mapErase m k).Pairwise (fun a b => a.1 < b.1) :=
  hs.sublist (mapErase_sublist m k)

theorem mapFind?_erase_self_of_sorted {α : Type} (m : List (String × α)) (k : String)
    (hs : m.Pairwise (fun a b => a.1 < b.1)) :
    mapFind? (mapErase m k) k = none := by
  induction m with
  | nil => rfl
  | cons ep rest ih =>
    obtain ⟨k', v'⟩ := ep
    rw [List.pairwise_cons] at hs
    obtain ⟨hbound, hrest⟩ := hs
    by_cases heq : k = k'
    · subst heq
      simp only [mapErase, if_pos rfl]
      exact mapFind?_eq_none_of_forall_ne rest k (fun e he => ne_of_gt (hbound e he))
    · simp only [mapErase, if_neg heq, mapFind?, if_neg heq]
      exact ih hrest

/-! ## Claim C5 — export write failure handling -/

/-- A filesystem oracle whose writes always fail. -/
def failingWriteOracle : String → String → Except String Unit :=
  fun _ _ => Except.error "disk full"

/-- C5 counterexample: with a destination that is a real file path and a
filesystem whose write fails, the write result is an error and yet the
export command's exit status is 0 — the claim's "exits with a non-zero
status" is false on the code (`write_file(dest, &output).ok()` discards
the error and `main` returns `Ok(())`). -/
theorem claim_C5_counterexample :
    write_file failingWriteOracle "out.json" "tfstate" = Except.error "disk full" ∧
      export_exit_code failingWriteOracle "out.json" "tfstate" = 0 :=
  ⟨rfl, rfl⟩

/-- C5 amended: when the output destination is not `-` and the underlying
filesystem write fails, the error is converted to `Option` and discarded
(`.ok()`), no failure is propagated, and the command exits with status 0
(not non-zero, and nothing is reported). -/
theorem claim_C5 (fsWrite : String → String → Except String Unit)
    (dest output e : String) (hdest : dest ≠ "-")
    (hfail : fsWrite dest output = Except.error e) :
    export_write_result fsWrite dest output = none ∧
      export_exit_code fsWrite dest output = 0 := by
  constructor
  · have hb : (dest == "-") = false := by
      simp [hdest]
    simp [export_write_result, write_file, hb, hfail, Except.toOption]
  · rfl

/-- C5 witness: the amended theorem applied at a concrete failing
filesystem and destination. -/
theorem claim_C5_witness :
    export_write_result failingWriteOracle "out.json" "tfstate" = none ∧
      export_exit_code failingWriteOracle "out.json" "tfstate" = 0 :=
  claim_C5 failingWriteOracle "out.json" "tfstate" "disk full" (by decide) rfl

/-! ## Claim C8 — include/exclude precedence -/

/-- C8: the policy filter obeys include-over-exclude precedence: any
include match admits the policy regardless of excludes; with no include
match, a policy is excluded whenever includes were configured (miss) or an
exclude matches; and with neither includes nor excludes configured every
policy passes. -/
theorem claim_C8 (includes excludes : List (String → Bool)) (policy : EscalationPolicy) :
    ((∃ r ∈ includes, r policy.policy_name = true) →
        policy_should_be_included includes excludes policy = true) ∧
    ((∀ r ∈ includes, r policy.policy_name = false) →
        (∃ r ∈ excludes, r policy.policy_name = true) →
        policy_should_be_included includes excludes policy = false) ∧
    (includes = [] → excludes = [] →
        policy_should_be_included includes excludes policy = true) := by
  refine ⟨?_, ?_, ?_⟩
  · intro hmatch
    have hne : includes.isEmpty = false := by
      obtain ⟨r, hr, _⟩ := hmatch
      cases includes with
      | nil => cases hr
      | cons a l => rfl
    have hany : includes.any (fun exp => exp policy.policy_name) = true :=
      List.any_eq_true.mpr hmatch
    simp [policy_should_be_included, does_policy_match, hne, hany]
  · intro hmiss hexc
    have hnoany : includes.any (fun exp => exp policy.policy_name) = false := by
      rw [List.any_eq_false]
      intro r hr
      simp [hmiss r hr]
    have hexcne : excludes.isEmpty = false := by
      obtain ⟨r, hr, _⟩ := hexc
      cases excludes with
      | nil => cases hr
      | cons a l => rfl
    have hexcany : excludes.any (fun exp => exp policy.policy_name) = true :=
      List.any_eq_true.mpr hexc
    cases hinc : includes.isEmpty with
    | true => simp [policy_should_be_included, does_policy_match, hinc, hexcne, hexcany]
    | false => simp [policy_should_be_included, does_policy_match, hinc, hnoany]
  · intro h1 h2
    subst h1
    subst h2
    rfl

/-- The spec example's include matcher: the regex `foo`, anchored here as
a plain "starts with foo" predicate over the character list. -/
def incFoo : String → Bool := fun s => "foo".data.isPrefixOf s.data

/-- The spec example's exclude matcher: the regex `.*`, which matches
everything. -/
def excAll : String → Bool := fun _ => true

/-- The spec example's included policy, named `foobar`. -/
def pFoobar : EscalationPolicy := ⟨"id1", none, "foobar", [], []⟩

/-- The spec example's excluded policy, named `bar`. -/
def pBar : EscalationPolicy := ⟨"id2", none, "bar", [], []⟩

/-- C8 witness: the spec's three concrete scenarios, each obtained from
the claim theorem. -/
theorem claim_C8_witness :
    policy_should_be_included [incFoo] [excAll] pFoobar = true ∧
      policy_should_be_included [incFoo] [excAll] pBar = false ∧
      policy_should_be_included [] [] pBar = true := by
  refine ⟨?_, ?_, ?_⟩
  · exact (claim_C8 [incFoo] [excAll] pFoobar).1
      ⟨incFoo, List.mem_singleton.mpr rfl, by decide⟩
  · exact (claim_C8 [incFoo] [excAll] pBar).2.1
      (by
        intro r hr
        rw [List.mem_singleton.mp hr]
        decide)
      ⟨excAll, List.mem_singleton.mpr rfl, rfl⟩
  · exact (claim_C8 [] [] pBar).2.2 rfl rfl

/-! ## Claim C1 — zero on-call rows for a policy -/

/-- C1 amended: a policy with zero matching on-call rows does NOT get an
empty levels sequence; `max().unwrap_or(1)` defaults the maximum level to
1, so the aggregation produces exactly one level of depth 1 with an empty
user list. -/
theorem claim_C1 (s : PagerDutyState) (p : EscalationPolicy)
    (hp : p ∈ s.make_escalation_policies)
    (hrows : oncallForEsc s.oncalls p.id = []) :
    p.oncall_groups = [⟨[], 1⟩] := by
  obtain ⟨esc, hesc, rfl⟩ := List.mem_map.mp hp
  have hrows' : oncallForEsc s.oncalls esc.id = [] := hrows
  show (List.range' 1 (maxDepthOf (oncallForEsc s.oncalls esc.id))).map
      (fun depth =>
        PagerDutyUserGroups.mk (usersForDepth s.users (oncallForEsc s.oncalls esc.id) depth)
          depth) = [⟨[], 1⟩]
  rw [hrows']
  rfl

/-- A state holding one policy and nothing else. -/
def c1state : PagerDutyState :=
  PagerDutyState.empty.add_policy ⟨"p1", none, "P"⟩

/-- C1 counterexample: a policy with zero on-call rows is aggregated to a
single synthetic empty level of depth 1, not to an empty levels
sequence. -/
theorem claim_C1_counterexample :
    c1state.oncalls = [] ∧
      (c1state.make_escalation_policies).map (fun p => p.oncall_groups) =
        [[⟨[], 1⟩]] ∧
      ([[(⟨[], 1⟩ : PagerDutyUserGroups)]] ≠ ([[]] : List (List PagerDutyUserGroups))) := by
  refine ⟨rfl, rfl, ?_⟩
  decide

/-- The aggregate policy produced for `c1state`. -/
def c1policy : EscalationPolicy := ⟨"p1", none, "P", [⟨[], 1⟩], []⟩

/-- C1 witness: the amended theorem applied at the concrete one-policy
state with no on-call rows. -/
theorem claim_C1_witness :
    c1policy ∈ c1state.make_escalation_policies ∧
      oncallForEsc c1state.oncalls c1policy.id = [] ∧
      c1policy.oncall_groups = [⟨[], 1⟩] :=
  ⟨by decide, rfl, claim_C1 c1state c1policy (by decide) rfl⟩

/-! ## Claim C4 — policy equality vs ordering -/

theorem policyLe_iff (a b : EscalationPolicy) :
    policyLe a b = true ↔ a.policy_name ≤ b.policy_name := by
  rw [← compare_le_iff_le]
  rw [policyLe, EscalationPolicy.cmp]
  cases compare a.policy_name b.policy_name <;> decide

/-- One of the spec example's policies, id `a`, named `X`. -/
def c4first : EscalationPolicy := ⟨"a", none, "X", [], []⟩

/-- A second policy with the same name `X` but id `b`. -/
def c4second : EscalationPolicy := ⟨"b", none, "X", [], []⟩

/-- C4 counterexample: two policies with equal names but different ids
compare as `eq` under the hand-written ordering yet are NOT equal — the
derived `PartialEq` compares every field, so equality is not "defined
solely by the policy name". -/
theorem claim_C4_counterexample :
    EscalationPolicy.cmp c4first c4second = Ordering.eq ∧ c4first ≠ c4second := by
  constructor
  · decide
  · decide

/-- C4 amended: ordering (not equality) is defined solely by the policy
name: `cmp` compares exactly the names, and sorting any policy list with
it produces a permutation whose names are ascending.  Equality, by
contrast, is the derived field-wise one (see the counterexample). -/
theorem claim_C4 (l : List EscalationPolicy) :
    ((sortPolicies l).map (fun p => p.policy_name)).Pairwise (· ≤ ·) ∧
      (sortPolicies l).Perm l ∧
      (∀ a b : EscalationPolicy,
        EscalationPolicy.cmp a b = compare a.policy_name b.policy_name) := by
  refine ⟨?_, List.mergeSort_perm l policyLe, fun a b => rfl⟩
  have htr : ∀ a b c : EscalationPolicy,
      policyLe a b = true → policyLe b c = true → policyLe a c = true := by
    intro a b c hab hbc
    exact (policyLe_iff a c).mpr
      (le_trans ((policyLe_iff a b).mp hab) ((policyLe_iff b c).mp hbc))
  have hto : ∀ a b : EscalationPolicy, (policyLe a b || policyLe b a) = true := by
    intro a b
    rcases le_total a.policy_name b.policy_name with h | h
    · exact Bool.or_eq_true_iff.mpr (Or.inl ((policyLe_iff a b).mpr h))
    · exact Bool.or_eq_true_iff.mpr (Or.inr ((policyLe_iff b a).mpr h))
  have hs := List.sorted_mergeSort htr hto l
  rw [List.pairwise_map]
  exact hs.imp (fun hab => (policyLe_iff _ _).mp hab)

/-! ## Claim C10 — accumulation state invariants -/

theorem getLast?_cons_or {α : Type} (a : α) (l : List α) :
    (a :: l).getLast? = l.getLast?.or (some a) := by
  rw [List.getLast?_cons]
  cases h : l.getLast? with
  | none => rfl
  | some x => rfl

theorem find_policies_applyOps (ops : List RawOp) (s : PagerDutyState) (pid : String) :
    mapFind? (applyOps s ops).escalation_policies pid =
      (((ops.filterMap opPolicy).filter (fun p => p.id == pid)).getLast?).or
        (mapFind? s.escalation_policies pid) := by
  induction ops generalizing s with
  | nil => simp [applyOps]
  | cons op rest ih =>
    rw [show applyOps s (op :: rest) = applyOps (applyOp s op) rest from rfl, ih]
    cases op with
    | policy p =>
      simp only [applyOp, opPolicy, List.filterMap_cons, List.filter_cons]
      by_cases hid : p.id = pid
      · have hb : (p.id == pid) = true := beq_iff_eq.mpr hid
        simp only [hb, if_true]
        rw [getLast?_cons_or, Option.or_assoc]
        have : mapFind? (s.add_policy p).escalation_policies pid = some p := by
          rw [PagerDutyState.add_policy, ← hid]
          exact mapFind?_insert_self _ _ _
        rw [this]
        rfl
      · have hb : (p.id == pid) = false := beq_eq_false_iff_ne.mpr hid
        rw [hb]
        simp only [Bool.false_eq_true, if_false]
        have : mapFind? (s.add_policy p).escalation_policies pid =
            mapFind? s.escalation_policies pid := by
          rw [PagerDutyState.add_policy]
          exact mapFind?_insert_ne _ _ _ _ (fun hc => hid hc.symm)
        rw [this]
    | oncall o => simp only [applyOp, opPolicy, List.filterMap_cons]; rfl
    | user u => simp only [applyOp, opPolicy, List.filterMap_cons]; rfl
    | service v => simp only [applyOp, opPolicy, List.filterMap_cons]; rfl

theorem find_users_applyOps (ops : List RawOp) (s : PagerDutyState) (uid : String) :
    mapFind? (applyOps s ops).users uid =
      (((ops.filterMap opUser).filter (fun u => u.id == uid)).getLast?).or
        (mapFind? s.users uid) := by
  induction ops generalizing s with
  | nil => simp [applyOps]
  | cons op rest ih =>
    rw [show applyOps s (op :: rest) = applyOps (applyOp s op) rest from rfl, ih]
    cases op with
    | user u =>
      simp only [applyOp, opUser, List.filterMap_cons, List.filter_cons]
      by_cases hid : u.id = uid
      · have hb : (u.id == uid) = true := beq_iff_eq.mpr hid
        simp only [hb, if_true]
        rw [getLast?_cons_or, Option.or_assoc]
        have : mapFind? (s.add_user u).users uid = some u := by
          rw [PagerDutyState.add_user, ← hid]
          exact mapFind?_insert_self _ _ _
        rw [this]
        rfl
      · have hb : (u.id == uid) = false := beq_eq_false_iff_ne.mpr hid
        rw [hb]
        simp only [Bool.false_eq_true, if_false]
        have : mapFind? (s.add_user u).users uid = mapFind? s.users uid := by
          rw [PagerDutyState.add_user]
          exact mapFind?_insert_ne _ _ _ _ (fun hc => hid hc.symm)
        rw [this]
    | policy p => simp only [applyOp, opUser, List.filterMap_cons]; rfl
    | oncall o => simp only [applyOp, opUser, List.filterMap_cons]; rfl
    | service v => simp only [applyOp, opUser, List.filterMap_cons]; rfl

theorem find_services_applyOps (ops : List RawOp) (s : PagerDutyState) (sid : String) :
    mapFind? (applyOps s ops).services sid =
      (((ops.filterMap opService).filter (fun v => v.id == sid)).getLast?).or
        (mapFind? s.services sid) := by
  induction ops generalizing s with
  | nil => simp [applyOps]
  | cons op rest ih =>
    rw [show applyOps s (op :: rest) = applyOps (applyOp s op) rest from rfl, ih]
    cases op with
    | service v =>
      simp only [applyOp, opService, List.filterMap_cons, List.filter_cons]
      by_cases hid : v.id = sid
      · have hb : (v.id == sid) = true := beq_iff_eq.mpr hid
        simp only [hb, if_true]
        rw [getLast?_cons_or, Option.or_assoc]
        have : mapFind? (s.add_service v).services sid = some v := by
          rw [PagerDutyState.add_service, ← hid]
          exact mapFind?_insert_self _ _ _
        rw [this]
        rfl
      · have hb : (v.id == sid) = false := beq_eq_false_iff_ne.mpr hid
        rw [hb]
        simp only [Bool.false_eq_true, if_false]
        have : mapFind? (s.add_service v).services sid = mapFind? s.services sid := by
          rw [PagerDutyState.add_service]
          exact mapFind?_insert_ne _ _ _ _ (fun hc => hid hc.symm)
        rw [this]
    | policy p => simp only [applyOp, opService, List.filterMap_cons]; rfl
    | oncall o => simp only [applyOp, opService, List.filterMap_cons]; rfl
    | user u => simp only [applyOp, opService, List.filterMap_cons]; rfl

theorem oncalls_applyOps (ops : List RawOp) (s : PagerDutyState) :
    (applyOps s ops).oncalls = s.oncalls ++ ops.filterMap opOncall := by
  induction ops generalizing s with
  | nil => simp [applyOps]
  | cons op rest ih =>
    rw [show applyOps s (op :: rest) = applyOps (applyOp s op) rest from rfl, ih]
    cases op with
    | oncall o =>
      simp only [applyOp, opOncall, List.filterMap_cons]
      rw [show (s.add_oncall o).oncalls = s.oncalls ++ [o] from rfl]
      rw [← List.append_cons]
    | policy p => simp only [applyOp, opOncall, List.filterMap_cons]; rfl
    | user u => simp only [applyOp, opOncall, List.filterMap_cons]; rfl
    | service v => simp only [applyOp, opOncall, List.filterMap_cons]; rfl

/-- Well-formedness of the accumulation state: each of the three maps is
key-sorted (hence has distinct keys), and the policy map binds each key to
the record carrying exactly that id. -/
def StateWf (s : PagerDutyState) : Prop :=
  s.escalation_policies.Pairwise (fun a b => a.1 < b.1) ∧
    s.users.Pairwise (fun a b => a.1 < b.1) ∧
    s.services.Pairwise (fun a b => a.1 < b.1) ∧
    (∀ e ∈ s.escalation_policies, e.2.id = e.1)

theorem applyOps_wf (ops : List RawOp) (s : PagerDutyState) (h : StateWf s) :
    StateWf (applyOps s ops) := by
  induction ops generalizing s with
  | nil => exact h
  | cons op rest ih =>
    rw [show applyOps s (op :: rest) = applyOps (applyOp s op) rest from rfl]
    refine ih _ ?_
    obtain ⟨h1, h2, h3, h4⟩ := h
    cases op with
    | policy p =>
      refine ⟨mapInsert_sorted _ _ _ h1, h2, h3, ?_⟩
      intro e he
      rcases mem_mapInsert _ _ _ e he with h' | h'
      · rw [h']
      · exact h4 e h'
    | oncall o => exact ⟨h1, h2, h3, h4⟩
    | user u => exact ⟨h1, mapInsert_sorted _ _ _ h2, h3, h4⟩
    | service v => exact ⟨h1, h2, mapInsert_sorted _ _ _ h3, h4⟩

theorem stateWf_empty : StateWf PagerDutyState.empty :=
  ⟨List.Pairwise.nil, List.Pairwise.nil, List.Pairwise.nil, fun e he => absurd he (by simp [PagerDutyState.empty])⟩

/-- C10: over any sequence of decoded records fed into an initially empty
state, each of the three id-keyed maps binds an id to exactly the most
recently added record with that id (and keys stay distinct, so no earlier
record survives alongside), while on-call rows are appended
unconditionally and all survive in insertion order. -/
theorem claim_C10 (ops : List RawOp) (pid uid sid : String) :
    (mapFind? (applyOps PagerDutyState.empty ops).escalation_policies pid =
        ((ops.filterMap opPolicy).filter (fun p => p.id == pid)).getLast?) ∧
    (mapFind? (applyOps PagerDutyState.empty ops).users uid =
        ((ops.filterMap opUser).filter (fun u => u.id == uid)).getLast?) ∧
    (mapFind? (applyOps PagerDutyState.empty ops).services sid =
        ((ops.filterMap opService).filter (fun v => v.id == sid)).getLast?) ∧
    ((applyOps PagerDutyState.empty ops).oncalls = ops.filterMap opOncall) ∧
    ((applyOps PagerDutyState.empty ops).escalation_policies.Pairwise
        (fun a b => a.1 < b.1)) ∧
    ((applyOps PagerDutyState.empty ops).users.Pairwise (fun a b => a.1 < b.1)) ∧
    ((applyOps PagerDutyState.empty ops).services.Pairwise (fun a b => a.1 < b.1)) := by
  have hwf := applyOps_wf ops PagerDutyState.empty stateWf_empty
  refine ⟨?_, ?_, ?_, ?_, hwf.1, hwf.2.1, hwf.2.2.1⟩
  · rw [find_policies_applyOps]
    rw [show mapFind? PagerDutyState.empty.escalation_policies pid = none from rfl]
    exact Option.or_none
  · rw [find_users_applyOps]
    rw [show mapFind? PagerDutyState.empty.users uid = none from rfl]
    exact Option.or_none
  · rw [find_services_applyOps]
    rw [show mapFind? PagerDutyState.empty.services sid = none from rfl]
    exact Option.or_none
  · rw [oncalls_applyOps]
    rfl

/-! ## Claim C3 — aggregation output order -/

/-- Two policies decoded in the order id `b` (named `A`) then id `a`
(named `B`). -/
def c3ops : List RawOp :=
  [RawOp.policy ⟨"b", none, "A"⟩, RawOp.policy ⟨"a", none, "B"⟩]

/-- C3 counterexample: the decode order of the two policies is ids
`[b, a]`, but the aggregation emits ids `[a, b]` — the `BTreeMap`
iteration order by id, not the decoded order. -/
theorem claim_C3_counterexample :
    (c3ops.filterMap opPolicy).map (fun p => p.id) = ["b", "a"] ∧
      ((applyOps PagerDutyState.empty c3ops).make_escalation_policies).map
        (fun p => p.id) = ["a", "b"] ∧
      (["a", "b"] ≠ (["b", "a"] : List String)) := by
  refine ⟨by decide, by decide, by decide⟩

/-- C3 amended: the aggregation step returns the policies in ascending
order of policy id — the iteration order of the id-keyed `BTreeMap` —
rather than in decoded order. -/
theorem claim_C3 (ops : List RawOp) :
    ((applyOps PagerDutyState.empty ops).make_escalation_policies).map (fun p => p.id) =
      (applyOps PagerDutyState.empty ops).escalation_policies.map Prod.fst ∧
    ((applyOps PagerDutyState.empty ops).escalation_policies.map Prod.fst).Pairwise
      (· < ·) := by
  have hwf := applyOps_wf ops PagerDutyState.empty stateWf_empty
  constructor
  · rw [PagerDutyState.make_escalation_policies, mapValues, List.map_map, List.map_map]
    refine List.map_congr_left ?_
    intro e he
    exact hwf.2.2.2 e he
  · exact hwf.1.map Prod.fst (fun a b h => h)

/-! ## Claim C2 — export name-collision handling -/

/-- Well-formedness of the export state: the name-to-id map is
key-sorted. -/
def ExpWf (d : TfStateExportData) : Prop :=
  d.escalation_policies.Pairwise (fun a b => a.1 < b.1)

theorem addEsc_wf (d : TfStateExportData) (p : EscalationPolicy) (h : ExpWf d) :
    ExpWf (d.add_escalation_policy p) := by
  rw [TfStateExportData.add_escalation_policy]
  cases hf : mapFind? d.escalation_policies p.policy_name with
  | none => exact mapInsert_sorted _ _ _ h
  | some value =>
    by_cases hv : value ≠ p.id
    · simp only [if_pos hv]
      exact mapErase_sorted _ _ h
    · simp only [if_neg hv]
      exact mapInsert_sorted _ _ _ h

theorem addEsc_other (d : TfStateExportData) (p : EscalationPolicy) (nm : String)
    (h : p.policy_name ≠ nm) :
    mapFind? ((d.add_escalation_policy p).escalation_policies) nm =
        mapFind? d.escalation_policies nm ∧
      (nm ∈ (d.add_escalation_policy p).duplicates ↔ nm ∈ d.duplicates) := by
  have hne : nm ≠ p.policy_name := fun hc => h hc.symm
  rw [TfStateExportData.add_escalation_policy]
  cases hf : mapFind? d.escalation_policies p.policy_name with
  | none =>
    refine ⟨mapFind?_insert_ne _ _ _ _ hne, ?_⟩
    simp
  | some value =>
    by_cases hv : value ≠ p.id
    · simp only [if_pos hv]
      refine ⟨mapFind?_erase_ne _ _ _ hne, ?_⟩
      simp [List.mem_append, hne]
    · simp only [if_neg hv]
      refine ⟨mapFind?_insert_ne _ _ _ _ hne, ?_⟩
      simp

theorem fold_obs_congr (nm : String) (qs : List EscalationPolicy) :
    ∀ (d d' : TfStateExportData), ExpWf d → ExpWf d' →
      (∀ q ∈ qs, q.policy_name = nm) →
      mapFind? d.escalation_policies nm = mapFind? d'.escalation_policies nm →
      (nm ∈ d.duplicates ↔ nm ∈ d'.duplicates) →
      mapFind? ((qs.foldl TfStateExportData.add_escalation_policy d).escalation_policies)
          nm =
        mapFind?
          ((qs.foldl TfStateExportData.add_escalation_policy d').escalation_policies) nm ∧
      (nm ∈ (qs.foldl TfStateExportData.add_escalation_policy d).duplicates ↔
        nm ∈ (qs.foldl TfStateExportData.add_escalation_policy d').duplicates) := by
  induction qs with
  | nil => intro d d' _ _ _ hfind hdup; exact ⟨hfind, hdup⟩
  | cons q rest ih =>
    intro d d' hw hw' hnames hfind hdup
    have hq : q.policy_name = nm := hnames q (List.mem_cons_self _ _)
    have hstep :
        mapFind? ((d.add_escalation_policy q).escalation_policies) nm =
            mapFind? ((d'.add_escalation_policy q).escalation_policies) nm ∧
          (nm ∈ (d.add_escalation_policy q).duplicates ↔
            nm ∈ (d'.add_escalation_policy q).duplicates) := by
      rw [TfStateExportData.add_escalation_policy, TfStateExportData.add_escalation_policy]
      rw [hq, hfind]
      cases hf : mapFind? d'.escalation_policies nm with
      | none =>
        refine ⟨?_, hdup⟩
        rw [mapFind?_insert_self, mapFind?_insert_self]
      | some value =>
        by_cases hv : value ≠ q.id
        · simp only [if_pos hv]
          refine ⟨?_, ?_⟩
          · rw [mapFind?_erase_self_of_sorted _ _ hw, mapFind?_erase_self_of_sorted _ _ hw']
          · simp [List.mem_append]
        · simp only [if_neg hv]
          refine ⟨?_, hdup⟩
          rw [mapFind?_insert_self, mapFind?_insert_self]
    exact ih (d.add_escalation_policy q) (d'.add_escalation_policy q)
      (addEsc_wf _ _ hw) (addEsc_wf _ _ hw')
      (fun r hr => hnames r (List.mem_cons_of_mem _ hr)) hstep.1 hstep.2

theorem fold_filter_obs (nm : String) (ps : List EscalationPolicy) :
    ∀ (d : TfStateExportData), ExpWf d →
      mapFind? ((ps.foldl TfStateExportData.add_escalation_policy d).escalation_policies)
          nm =
        mapFind?
          (((ps.filter (fun r => r.policy_name == nm)).foldl
              TfStateExportData.add_escalation_policy d).escalation_policies) nm ∧
      (nm ∈ (ps.foldl TfStateExportData.add_escalation_policy d).duplicates ↔
        nm ∈ ((ps.filter (fun r => r.policy_name == nm)).foldl
          TfStateExportData.add_escalation_policy d).duplicates) := by
  induction ps with
  | nil => intro d _; exact ⟨rfl, Iff.rfl⟩
  | cons p rest ih =>
    intro d hw
    by_cases hp : p.policy_name = nm
    · have hb : (p.policy_name == nm) = true := beq_iff_eq.mpr hp
      simp only [List.filter_cons, hb, if_true]
      exact ih (d.add_escalation_policy p) (addEsc_wf _ _ hw)
    · have hb : (p.policy_name == nm) = false := beq_eq_false_iff_ne.mpr hp
      simp only [List.filter_cons, hb, Bool.false_eq_true, if_false]
      have h1 := ih (d.add_escalation_policy p) (addEsc_wf _ _ hw)
      have hother := addEsc_other d p nm hp
      have h2 := fold_obs_congr nm (rest.filter (fun r => r.policy_name == nm))
        (d.add_escalation_policy p) d (addEsc_wf _ _ hw) hw
        (fun r hr => beq_iff_eq.mp (List.mem_filter.mp hr).2) hother.1 hother.2
      exact ⟨h1.1.trans h2.1, h1.2.trans h2.2⟩

theorem fold_same_id (nm i0 : String) (qs : List EscalationPolicy) :
    ∀ (d : TfStateExportData),
      (∀ q ∈ qs, q.policy_name = nm ∧ q.id = i0) →
      mapFind? d.escalation_policies nm = some i0 → nm ∉ d.duplicates →
      mapFind? ((qs.foldl TfStateExportData.add_escalation_policy d).escalation_policies)
          nm = some i0 ∧
        nm ∉ (qs.foldl TfStateExportData.add_escalation_policy d).duplicates := by
  induction qs with
  | nil => intro d _ hfind hdup; exact ⟨hfind, hdup⟩
  | cons q rest ih =>
    intro d hq hfind hdup
    obtain ⟨hqn, hqi⟩ := hq q (List.mem_cons_self _ _)
    have hstep :
        mapFind? ((d.add_escalation_policy q).escalation_policies) nm = some i0 ∧
          nm ∉ (d.add_escalation_policy q).duplicates := by
      rw [TfStateExportData.add_escalation_policy, hqn, hfind]
      have hv : ¬ i0 ≠ q.id := by
        rw [hqi]
        exact fun hc => hc rfl
      simp only [if_neg hv]
      refine ⟨?_, hdup⟩
      rw [hqi]
      exact mapFind?_insert_self _ _ _
    exact ih (d.add_escalation_policy q)
      (fun r hr => hq r (List.mem_cons_of_mem _ hr)) hstep.1 hstep.2

/-- C2 amended: the two-addition scenarios behave as claimed — exactly two
policies with a name and different ids leave the name out of the mapping
and in duplicates, and additions that all carry the same id keep the
mapping intact with the name never recorded as a duplicate.  (The claim's
fully universal form fails: a policy with the collided name added again
AFTER the collision re-inserts the name into the mapping, see the
counterexample.) -/
theorem claim_C2 (ps : List EscalationPolicy) (nm : String) :
    ((∃ p q, ps.filter (fun r => r.policy_name == nm) = [p, q] ∧ p.id ≠ q.id) →
        mapFind? (exportAll ps).escalation_policies nm = none ∧
          nm ∈ (exportAll ps).duplicates) ∧
    (∀ i0, ps.filter (fun r => r.policy_name == nm) ≠ [] →
        (∀ p ∈ ps, p.policy_name = nm → p.id = i0) →
        mapFind? (exportAll ps).escalation_policies nm = some i0 ∧
          nm ∉ (exportAll ps).duplicates) := by
  have hbase := fold_filter_obs nm ps TfStateExportData.empty List.Pairwise.nil
  constructor
  · rintro ⟨p, q, hfil, hne⟩
    have hpn : p.policy_name = nm := by
      have : p ∈ ps.filter (fun r => r.policy_name == nm) := by
        rw [hfil]; exact List.mem_cons_self _ _
      exact beq_iff_eq.mp (List.mem_filter.mp this).2
    have hqn : q.policy_name = nm := by
      have : q ∈ ps.filter (fun r => r.policy_name == nm) := by
        rw [hfil]; exact List.mem_cons_of_mem _ (List.mem_cons_self _ _)
      exact beq_iff_eq.mp (List.mem_filter.mp this).2
    rw [exportAll] at *
    rw [hfil] at hbase
    have hcomp :
        mapFind? (([p, q].foldl TfStateExportData.add_escalation_policy
            TfStateExportData.empty).escalation_policies) nm = none ∧
          nm ∈ ([p, q].foldl TfStateExportData.add_escalation_policy
            TfStateExportData.empty).duplicates := by
      have e1 : TfStateExportData.add_escalation_policy TfStateExportData.empty p =
          ⟨[(p.policy_name, p.id)], []⟩ := rfl
      have hqp : q.policy_name = p.policy_name := by rw [hpn, hqn]
      have hfind2 : mapFind? [(p.policy_name, p.id)] q.policy_name = some p.id := by
        simp [mapFind?, hqp]
      have hv2 : p.id ≠ q.id := hne
      have e2 : TfStateExportData.add_escalation_policy
          (⟨[(p.policy_name, p.id)], []⟩ : TfStateExportData) q =
          ⟨[], [q.policy_name]⟩ := by
        rw [TfStateExportData.add_escalation_policy]
        rw [show mapFind?
            ((⟨[(p.policy_name, p.id)], []⟩ : TfStateExportData).escalation_policies)
            q.policy_name = some p.id from hfind2]
        simp only [if_pos hv2]
        have herase : mapErase [(p.policy_name, p.id)] q.policy_name = [] := by
          simp [mapErase, hqp]
        simp [herase]
      rw [show ([p, q].foldl TfStateExportData.add_escalation_policy
          TfStateExportData.empty) = TfStateExportData.add_escalation_policy
          (TfStateExportData.add_escalation_policy TfStateExportData.empty p) q from rfl]
      rw [e1, e2]
      exact ⟨rfl, List.mem_singleton.mpr hqn.symm⟩
    exact ⟨hbase.1.trans hcomp.1, hbase.2.mpr hcomp.2⟩
  · intro i0 hnonempty hsame
    rw [exportAll] at *
    cases hfil : ps.filter (fun r => r.policy_name == nm) with
    | nil => exact absurd hfil hnonempty
    | cons q restq =>
      rw [hfil] at hbase
      have hqmem : q ∈ ps.filter (fun r => r.policy_name == nm) := by
        rw [hfil]; exact List.mem_cons_self _ _
      have hqn : q.policy_name = nm := beq_iff_eq.mp (List.mem_filter.mp hqmem).2
      have hqi : q.id = i0 := hsame q (List.mem_filter.mp hqmem).1 hqn
      have e1 : TfStateExportData.add_escalation_policy TfStateExportData.empty q =
          ⟨[(q.policy_name, q.id)], []⟩ := rfl
      have hfind1 : mapFind? [(q.policy_name, q.id)] nm = some i0 := by
        simp [mapFind?, hqn, hqi]
      have hcomp := fold_same_id nm i0 restq ⟨[(q.policy_name, q.id)], []⟩
        (by
          intro r hr
          have hrmem : r ∈ ps.filter (fun x => x.policy_name == nm) := by
            rw [hfil]; exact List.mem_cons_of_mem _ hr
          have hrn : r.policy_name = nm := beq_iff_eq.mp (List.mem_filter.mp hrmem).2
          exact ⟨hrn, hsame r (List.mem_filter.mp hrmem).1 hrn⟩)
        hfind1 (by simp)
      rw [show ((q :: restq).foldl TfStateExportData.add_escalation_policy
          TfStateExportData.empty) = restq.foldl TfStateExportData.add_escalation_policy
          (TfStateExportData.add_escalation_policy TfStateExportData.empty q) from rfl,
        e1] at hbase
      exact ⟨hbase.1.trans hcomp.1, fun hc => hcomp.2 (hbase.2.mp hc)⟩

/-- The spec example's policy `{id: A, name: X}`. -/
def expAX : EscalationPolicy := ⟨"A", none, "X", [], []⟩

/-- The spec example's policy `{id: B, name: X}`. -/
def expBX : EscalationPolicy := ⟨"B", none, "X", [], []⟩

/-- C2 counterexample: the sequence `[{A,X}, {B,X}, {B,X}]` contains two
policies sharing the name `X` with different ids, yet after all additions
`X` is PRESENT in the mapping (bound to `B`): the third addition happens
after the collision removed the entry, finds no binding, and re-inserts.
This falsifies the claim's universal form. -/
theorem claim_C2_counterexample :
    expAX ∈ [expAX, expBX, expBX] ∧ expBX ∈ [expAX, expBX, expBX] ∧
      expAX.policy_name = expBX.policy_name ∧ expAX.id ≠ expBX.id ∧
      mapFind? (exportAll [expAX, expBX, expBX]).escalation_policies "X" = some "B" ∧
      "X" ∈ (exportAll [expAX, expBX, expBX]).duplicates := by
  refine ⟨by decide, by decide, by decide, by decide, by decide, by decide⟩

/-- C2 witness: the amended theorem applied at the spec's two concrete
scenarios — `[{A,X}, {B,X}]` collides, `[{A,X}, {A,X}]` does not — plus
the additional fact that the duplicates list is empty in the second. -/
theorem claim_C2_witness :
    (mapFind? (exportAll [expAX, expBX]).escalation_policies "X" = none ∧
      "X" ∈ (exportAll [expAX, expBX]).duplicates) ∧
    (mapFind? (exportAll [expAX, expAX]).escalation_policies "X" = some "A" ∧
      "X" ∉ (exportAll [expAX, expAX]).duplicates) ∧
    (exportAll [expAX, expAX]).duplicates = [] := by
  refine ⟨?_, ?_, by decide⟩
  · exact (claim_C2 [expAX, expBX] "X").1 ⟨expAX, expBX, by decide, by decide⟩
  · exact (claim_C2 [expAX, expAX] "X").2 "A" (by decide) (by decide)

/-! ## Claims C6 and C7 — level structure and user resolution -/

theorem filterMap_ite {α β : Type} (p : α → Bool) (f : α → Option β) (l : List α) :
    l.filterMap (fun a => if p a then f a else none) = (l.filter p).filterMap f := by
  induction l with
  | nil => rfl
  | cons a rest ih =>
    by_cases hpa : p a
    · cases hfa : f a with
      | none => simp [List.filterMap_cons, List.filter_cons, hpa, hfa, ih]
      | some b => simp [List.filterMap_cons, List.filter_cons, hpa, hfa, ih]
    · simp [List.filterMap_cons, List.filter_cons, hpa, ih]

theorem oncall_groups_depths (s : PagerDutyState) (esc : EscalationPolicyModel) :
    ((makeOnePolicy s esc).oncall_groups).map (fun g => g.depth) =
      List.range' 1 (maxDepthOf (oncallForEsc s.oncalls esc.id)) := by
  show ((List.range' 1 (maxDepthOf (oncallForEsc s.oncalls esc.id))).map
      (fun depth =>
        PagerDutyUserGroups.mk (usersForDepth s.users (oncallForEsc s.oncalls esc.id) depth)
          depth)).map (fun g => g.depth) =
    List.range' 1 (maxDepthOf (oncallForEsc s.oncalls esc.id))
  rw [List.map_map]
  exact List.map_id _

/-- C6: for every policy with at least one matching on-call row, the
produced levels have depths exactly `1..=max(escalation_level)` in
ascending order with no duplicates and no gaps (every depth up to the
maximum is present, even one with no resolvable users); the maximum is
the true maximum of the matching rows' levels. -/
theorem claim_C6 (s : PagerDutyState) (p : EscalationPolicy)
    (hp : p ∈ s.make_escalation_policies)
    (hrows : oncallForEsc s.oncalls p.id ≠ []) :
    p.oncall_groups.map (fun g => g.depth) =
        List.range' 1 (maxDepthOf (oncallForEsc s.oncalls p.id)) ∧
      ((oncallForEsc s.oncalls p.id).map (fun oc => oc.escalation_level)).max? =
        some (maxDepthOf (oncallForEsc s.oncalls p.id)) ∧
      (p.oncall_groups.map (fun g => g.depth)).Pairwise (· < ·) ∧
      (∀ d, 1 ≤ d → d ≤ maxDepthOf (oncallForEsc s.oncalls p.id) →
        ∃ g ∈ p.oncall_groups, g.depth = d) := by
  obtain ⟨esc, hesc, rfl⟩ := List.mem_map.mp hp
  have hid : (makeOnePolicy s esc).id = esc.id := rfl
  rw [hid] at hrows ⊢
  have hdepths := oncall_groups_depths s esc
  have hmax :
      ((oncallForEsc s.oncalls esc.id).map (fun oc => oc.escalation_level)).max? =
        some (maxDepthOf (oncallForEsc s.oncalls esc.id)) := by
    cases hm : ((oncallForEsc s.oncalls esc.id).map (fun oc => oc.escalation_level)).max? with
    | none =>
      rw [List.max?_eq_none_iff, List.map_eq_nil_iff] at hm
      exact absurd hm hrows
    | some x =>
      rw [maxDepthOf, hm]
      rfl
  refine ⟨hdepths, hmax, ?_, ?_⟩
  · rw [hdepths]
    exact List.pairwise_lt_range' 1 _
  · intro d h1 h2
    have hdmem : d ∈ List.range' 1 (maxDepthOf (oncallForEsc s.oncalls esc.id)) :=
      List.mem_range'_1.mpr ⟨h1, by omega⟩
    rw [← hdepths] at hdmem
    obtain ⟨g, hg, hgd⟩ := List.mem_map.mp hdmem
    exact ⟨g, hg, hgd⟩

/-- C7: for every produced level, the user list is exactly the matching
on-call rows at that depth, in row order, with each row resolved through
the user index and rows whose user id has no entry silently dropped; and
the level list itself is determined by the depths alone (`1..=max`), so a
level whose rows all fail to resolve is still present. -/
theorem claim_C7 (s : PagerDutyState) (p : EscalationPolicy)
    (hp : p ∈ s.make_escalation_policies) :
    (∀ g ∈ p.oncall_groups,
        g.users = ((oncallForEsc s.oncalls p.id).filter
            (fun oc => oc.escalation_level == g.depth)).filterMap
          (fun oc => (mapFind? s.users oc.user.id).map
            (fun u => ⟨u.id, u.name, u.email⟩))) ∧
      p.oncall_groups.map (fun g => g.depth) =
        List.range' 1 (maxDepthOf (oncallForEsc s.oncalls p.id)) := by
  obtain ⟨esc, hesc, rfl⟩ := List.mem_map.mp hp
  have hid : (makeOnePolicy s esc).id = esc.id := rfl
  rw [hid]
  refine ⟨?_, oncall_groups_depths s esc⟩
  intro g hg
  have hg' : g ∈ (List.range' 1 (maxDepthOf (oncallForEsc s.oncalls esc.id))).map
      (fun depth =>
        PagerDutyUserGroups.mk (usersForDepth s.users (oncallForEsc s.oncalls esc.id) depth)
          depth) := hg
  obtain ⟨d, hd, rfl⟩ := List.mem_map.mp hg'
  show usersForDepth s.users (oncallForEsc s.oncalls esc.id) d = _
  rw [usersForDepth, filterMap_ite]

/-- A state exercising C6: one policy, rows at levels 2 and 1 (decoded in
that order), the level-1 row referencing an unknown user. -/
def c6state : PagerDutyState :=
  (((PagerDutyState.empty.add_policy ⟨"p1", none, "P"⟩).add_oncall
      ⟨⟨"p1"⟩, 2, ⟨"u1"⟩⟩).add_oncall ⟨⟨"p1"⟩, 1, ⟨"missing"⟩⟩).add_user
    ⟨"Alice", "u1", "s", "h", "alice"⟩

/-- The policy `c6state` aggregates to: an empty level 1 and level 2 with
the one resolved user. -/
def c6policy : EscalationPolicy :=
  ⟨"p1", none, "P", [⟨[], 1⟩, ⟨[⟨"u1", "Alice", "alice"⟩], 2⟩], []⟩

/-- C6 witness: the theorem applied at the concrete two-row state. -/
theorem claim_C6_witness :
    c6policy ∈ c6state.make_escalation_policies ∧
      oncallForEsc c6state.oncalls c6policy.id ≠ [] ∧
      maxDepthOf (oncallForEsc c6state.oncalls c6policy.id) = 2 ∧
      c6policy.oncall_groups.map (fun g => g.depth) = List.range' 1 2 := by
  refine ⟨by decide, by decide, by decide, ?_⟩
  exact ((claim_C6 c6state c6policy (by decide) (by decide)).1).trans (by decide)

/-- A state exercising C7: one policy, two rows at depth 1, one user
resolvable and one not. -/
def c7state : PagerDutyState :=
  (((PagerDutyState.empty.add_policy ⟨"p2", none, "Q"⟩).add_oncall
      ⟨⟨"p2"⟩, 1, ⟨"u1"⟩⟩).add_oncall ⟨⟨"p2"⟩, 1, ⟨"ghost"⟩⟩).add_user
    ⟨"Bob", "u1", "s", "h", "bob"⟩

/-- The policy `c7state` aggregates to: a single level 1 with only the
resolved user. -/
def c7policy : EscalationPolicy :=
  ⟨"p2", none, "Q", [⟨[⟨"u1", "Bob", "bob"⟩], 1⟩], []⟩

/-- The single produced level of `c7policy`. -/
def c7group : PagerDutyUserGroups := ⟨[⟨"u1", "Bob", "bob"⟩], 1⟩

/-- C7 witness: the theorem applied at the concrete state where one row
resolves and the other is silently dropped. -/
theorem claim_C7_witness :
    c7policy ∈ c7state.make_escalation_policies ∧
      c7group ∈ c7policy.oncall_groups ∧
      c7group.users = ((oncallForEsc c7state.oncalls c7policy.id).filter
          (fun oc => oc.escalation_level == c7group.depth)).filterMap
        (fun oc => (mapFind? c7state.users oc.user.id).map
          (fun u => ⟨u.id, u.name, u.email⟩)) :=
  ⟨by decide, by decide, (claim_C7 c7state c7policy (by decide)).1 c7group (by decide)⟩

/-! ## Claim C9 — tree renderer refinement

The strategy: characterise what each builder call does to the graph
(`buildNode_some_char`, `buildChildren_char`, `buildNode_none_char`,
`buildRoots_char`), with the print behaviour of a newly built subtree
packaged as `PSpec` — an equation between `printLine` and `specLines`
stable under any later graph growth that leaves the subtree's own id
range untouched.  The claim theorem then equates `render` on any built
forest with the specification-side renderer. -/

/-- Join a sibling list where the final element — and only it — is
rendered with `true`. -/
def lastJoin {α : Type} (F : α → Bool → String) : List α → String
  | [] => ""
  | [x] => F x true
  | x :: y :: rest => F x false ++ lastJoin F (y :: rest)

theorem joinEnumFromLast {α : Type} (F : α → Bool → String) :
    ∀ (l : List α) (k : Nat),
      joinStrings ((List.enumFrom k l).map (fun p => F p.2 (p.1 == k + l.length - 1))) =
        lastJoin F l := by
  intro l
  induction l with
  | nil => intro k; rfl
  | cons x rest ih =>
    intro k
    cases rest with
    | nil =>
      show F x (k == k + 1 - 1) ++ "" = F x true
      have hflag : (k == k + 1 - 1) = true := by
        simp
      rw [hflag]
      exact String.append_empty _
    | cons y rest2 =>
      show F x (k == k + (rest2.length + 1 + 1) - 1) ++
          joinStrings ((List.enumFrom (k + 1) (y :: rest2)).map
            (fun p => F p.2 (p.1 == k + (rest2.length + 1 + 1) - 1))) =
        F x false ++ lastJoin F (y :: rest2)
      have hflag : (k == k + (rest2.length + 1 + 1) - 1) = false := by
        rw [beq_eq_false_iff_ne]
        omega
      have harith : k + (rest2.length + 1 + 1) - 1 = (k + 1) + (y :: rest2).length - 1 := by
        show _ = (k + 1) + (rest2.length + 1) - 1
        omega
      rw [hflag, harith, ih (k + 1)]

theorem joinEnumLast {α : Type} (F : α → Bool → String) (l : List α) :
    joinStrings (l.enum.map (fun p => F p.2 (p.1 == l.length - 1))) = lastJoin F l := by
  have h := joinEnumFromLast F l 0
  simpa using h

theorem lastJoin_congr {α β : Type} (F : α → Bool → String) (G : β → Bool → String)
    (as : List α) (bs : List β)
    (h : List.Forall₂ (fun x y => ∀ il, F x il = G y il) as bs) :
    lastJoin F as = lastJoin G bs := by
  induction h with
  | nil => rfl
  | cons hxy htail ih =>
    cases htail with
    | nil => exact hxy true
    | cons hxy2 htail2 =>
      show F _ false ++ lastJoin F (_ :: _) = G _ false ++ lastJoin G (_ :: _)
      rw [hxy false, ih]

theorem pfxOfAncestors_append_one (anc : List Bool) (b : Bool) :
    pfxOfAncestors (anc ++ [b]) = pfxOfAncestors anc ++ contSegment b := by
  induction anc with
  | nil =>
    show contSegment b ++ "" = "" ++ contSegment b
    rw [String.append_empty, String.empty_append]
  | cons a rest ih =>
    show contSegment a ++ pfxOfAncestors (rest ++ [b]) =
      (contSegment a ++ pfxOfAncestors rest) ++ contSegment b
    rw [ih, String.append_assoc]

theorem specChildren_eq_lastJoin (anc : List Bool) (cs : List LTree) :
    specChildren anc cs = lastJoin (fun t il => specLines anc il t) cs := by
  induction cs with
  | nil => rfl
  | cons t rest ih =>
    cases rest with
    | nil => rfl
    | cons t2 rest2 =>
      show specLines anc false t ++ specChildren anc (t2 :: rest2) = _
      rw [ih]
      rfl

theorem specForest_eq_lastJoin (f : List LTree) :
    specForest f = lastJoin (fun t il => specLines [] il t) f := by
  induction f with
  | nil => rfl
  | cons t rest ih =>
    cases rest with
    | nil => rfl
    | cons t2 rest2 =>
      show specLines [] false t ++ specForest (t2 :: rest2) = _
      rw [ih]
      rfl

theorem size_le_sizeForest_of_mem (t : LTree) (fs : List LTree) (h : t ∈ fs) :
    LTree.size t ≤ sizeForest fs := by
  induction fs with
  | nil => cases h
  | cons x rest ih =>
    rw [sizeForest]
    rcases List.mem_cons.mp h with h' | h'
    · rw [h']
      omega
    · have := ih h'
      omega

/-- Agreement of two graphs on the id interval `(a, b]`. -/
def AgreeOn (g' g : Graph) (a b : Nat) : Prop :=
  ∀ i, a < i → i ≤ b → g'.nodes i = g.nodes i ∧ g'.edges i = g.edges i

/-- Printing node `id` behaves like the specification renderer on tree
`t`, in every graph that agrees with `g` on the id interval `(a, b]`
(where the whole subtree lives), with any sufficient fuel. -/
def PSpec (g : Graph) (a b : Nat) (id : Nat) (t : LTree) : Prop :=
  ∀ (g' : Graph) (fuel : Nat) (anc : List Bool) (il : Bool),
    AgreeOn g' g a b → LTree.size t ≤ fuel →
    printLine g' fuel id (pfxOfAncestors anc) il = specLines anc il t

theorem PSpec_mono (g : Graph) (a b a' b' id : Nat) (t : LTree)
    (ha : a' ≤ a) (hb : b ≤ b') (h : PSpec g a b id t) : PSpec g a' b' id t := by
  intro g' fuel anc il hag hs
  exact h g' fuel anc il (fun i h1 h2 => hag i (by omega) (by omega)) hs

theorem PSpec_transport (g1 g2 : Graph) (a b id : Nat) (t : LTree)
    (hag : AgreeOn g2 g1 a b) (h : PSpec g1 a b id t) : PSpec g2 a b id t := by
  intro g' fuel anc il hag' hs
  refine h g' fuel anc il ?_ hs
  intro i h1 h2
  exact ⟨(hag' i h1 h2).1.trans (hag i h1 h2).1, (hag' i h1 h2).2.trans (hag i h1 h2).2⟩

theorem forall2_pspec_apply (g g'' : Graph) (a b f : Nat) (anc' : List Bool)
    (ids : List Nat) (cs : List LTree)
    (h : List.Forall₂ (PSpec g a b) ids cs) :
    AgreeOn g'' g a b → sizeForest cs ≤ f →
    List.Forall₂
      (fun id t => ∀ il', printLine g'' f id (pfxOfAncestors anc') il' =
        specLines anc' il' t) ids cs := by
  induction h with
  | nil => intro _ _; exact List.Forall₂.nil
  | cons h1 h2 ih =>
    rename_i id t idsr csr
    intro hag hsz
    rw [sizeForest] at hsz
    refine List.Forall₂.cons ?_ (ih hag (by omega))
    intro il'
    exact h1 g'' f anc' il' hag (by omega)

theorem pspec_assemble (g : Graph) (c : Nat) (label : String) (children : List LTree)
    (ids : List Nat)
    (hnode : g.nodes (c + 1) = some label)
    (hedge : g.edges (c + 1) = ids)
    (hF : List.Forall₂ (PSpec g (c + 1) (c + 1 + sizeForest children)) ids children) :
    PSpec g c (c + 1 + sizeForest children) (c + 1) (LTree.node label children) := by
  intro g' fuel anc il hagree hsize
  have hsz : LTree.size (LTree.node label children) = 1 + sizeForest children := by
    rw [LTree.size]
  rw [hsz] at hsize
  cases fuel with
  | zero => omega
  | succ f =>
    have hfg : sizeForest children ≤ f := by omega
    have hn' : g'.nodes (c + 1) = some label := by
      rw [(hagree (c + 1) (by omega) (by omega)).1, hnode]
    have he' : g'.edges (c + 1) = ids := by
      rw [(hagree (c + 1) (by omega) (by omega)).2, hedge]
    have hagree' : AgreeOn g' g (c + 1) (c + 1 + sizeForest children) :=
      fun i h1 h2 => hagree i (by omega) h2
    have hpairs := forall2_pspec_apply g g' (c + 1) (c + 1 + sizeForest children) f
      (anc ++ [il]) ids children hF hagree' hfg
    show printLine g' (f + 1) (c + 1) (pfxOfAncestors anc) il = _
    simp only [printLine, specLines, hn', he', Option.getD_some]
    have hchild : ∀ cpfx : String, cpfx = pfxOfAncestors (anc ++ [il]) →
        joinStrings (ids.enum.map
          (fun p => printLine g' f p.2 cpfx (p.1 == ids.length - 1))) =
          specChildren (anc ++ [il]) children := by
      intro cpfx hcp
      subst hcp
      exact (joinEnumLast
          (fun id il' => printLine g' f id (pfxOfAncestors (anc ++ [il])) il') ids).trans
        ((lastJoin_congr _ _ _ _ hpairs).trans (specChildren_eq_lastJoin _ _).symm)
    cases il
    · simp only [Bool.false_eq_true, if_false]
      rw [hchild (pfxOfAncestors anc ++ " │ ")
        (by rw [pfxOfAncestors_append_one]; rfl)]
    · simp only [if_true]
      rw [hchild (pfxOfAncestors anc ++ "   ")
        (by rw [pfxOfAncestors_append_one]; rfl)]

mutual
theorem buildNode_some_char (t : LTree) (tp : TreePrinter) (p : Nat)
    (hp : p ≤ tp.graph.index_counter) :
    (buildNode (some p) tp t).graph.index_counter =
        tp.graph.index_counter + LTree.size t ∧
      (buildNode (some p) tp t).roots = tp.roots ∧
      (∀ i, i ≤ tp.graph.index_counter →
        (buildNode (some p) tp t).graph.nodes i = tp.graph.nodes i) ∧
      (∀ i, i ≤ tp.graph.index_counter → i ≠ p →
        (buildNode (some p) tp t).graph.edges i = tp.graph.edges i) ∧
      (buildNode (some p) tp t).graph.edges p =
        tp.graph.edges p ++ [tp.graph.index_counter + 1] ∧
      PSpec (buildNode (some p) tp t).graph tp.graph.index_counter
        (tp.graph.index_counter + LTree.size t) (tp.graph.index_counter + 1) t := by
  cases t with
  | node label children =>
    have hunfold : buildNode (some p) tp (LTree.node label children) =
        buildChildren (tp.graph.index_counter + 1) (addChildLine tp p label).1 children := rfl
    have hpne : p ≠ tp.graph.index_counter + 1 := by omega
    have h1c : (addChildLine tp p label).1.graph.index_counter =
        tp.graph.index_counter + 1 := rfl
    have h1roots : (addChildLine tp p label).1.roots = tp.roots := rfl
    have h1n : ∀ i, i ≠ tp.graph.index_counter + 1 →
        (addChildLine tp p label).1.graph.nodes i = tp.graph.nodes i := by
      intro i hi
      show (if i = tp.graph.index_counter + 1 then some label else tp.graph.nodes i) =
        tp.graph.nodes i
      rw [if_neg hi]
    have h1nself : (addChildLine tp p label).1.graph.nodes (tp.graph.index_counter + 1) =
        some label := by
      show (if tp.graph.index_counter + 1 = tp.graph.index_counter + 1 then some label
        else tp.graph.nodes (tp.graph.index_counter + 1)) = some label
      rw [if_pos rfl]
    have h1ep : (addChildLine tp p label).1.graph.edges p =
        tp.graph.edges p ++ [tp.graph.index_counter + 1] := by
      show (if p = p then
          (if p = tp.graph.index_counter + 1 then [] else tp.graph.edges p) ++
            [tp.graph.index_counter + 1]
        else (if p = tp.graph.index_counter + 1 then [] else tp.graph.edges p)) =
        tp.graph.edges p ++ [tp.graph.index_counter + 1]
      rw [if_pos rfl, if_neg hpne]
    have h1eself : (addChildLine tp p label).1.graph.edges (tp.graph.index_counter + 1) =
        [] := by
      show (if tp.graph.index_counter + 1 = p then
          (if p = tp.graph.index_counter + 1 then [] else tp.graph.edges p) ++
            [tp.graph.index_counter + 1]
        else (if tp.graph.index_counter + 1 = tp.graph.index_counter + 1 then []
          else tp.graph.edges (tp.graph.index_counter + 1))) = []
      rw [if_neg (fun hc => hpne hc.symm), if_pos rfl]
    have h1eo : ∀ i, i ≠ p → i ≠ tp.graph.index_counter + 1 →
        (addChildLine tp p label).1.graph.edges i = tp.graph.edges i := by
      intro i hip hic
      show (if i = p then
          (if p = tp.graph.index_counter + 1 then [] else tp.graph.edges p) ++
            [tp.graph.index_counter + 1]
        else (if i = tp.graph.index_counter + 1 then [] else tp.graph.edges i)) =
        tp.graph.edges i
      rw [if_neg hip, if_neg hic]
    have h2 := buildChildren_char children (addChildLine tp p label).1
      (tp.graph.index_counter + 1) (le_of_eq h1c.symm)
    rw [h1c] at h2
    obtain ⟨h2c, h2roots, h2n, h2e, ids, h2eq, h2F⟩ := h2
    rw [hunfold]
    have hsz : LTree.size (LTree.node label children) = 1 + sizeForest children := by
      rw [LTree.size]
    refine ⟨?_, ?_, ?_, ?_, ?_, ?_⟩
    · rw [h2c, hsz]
      omega
    · rw [h2roots, h1roots]
    · intro i hi
      rw [h2n i (by omega), h1n i (by omega)]
    · intro i hi hip
      rw [h2e i (by omega) (by omega), h1eo i hip (by omega)]
    · rw [h2e p (by omega) hpne, h1ep]
    · have hnode2 : (buildChildren (tp.graph.index_counter + 1)
          (addChildLine tp p label).1 children).graph.nodes
          (tp.graph.index_counter + 1) = some label := by
        rw [h2n (tp.graph.index_counter + 1) (le_refl _), h1nself]
      have hedge2 : (buildChildren (tp.graph.index_counter + 1)
          (addChildLine tp p label).1 children).graph.edges
          (tp.graph.index_counter + 1) = ids := by
        rw [h2eq, h1eself]
        rfl
      have hassemble := pspec_assemble _ tp.graph.index_counter label children ids
        hnode2 hedge2 h2F
      exact PSpec_mono _ _ _ _ _ _ _ (le_refl _) (by rw [hsz]; omega) hassemble
termination_by sizeOf t

theorem buildChildren_char (cs : List LTree) (tp : TreePrinter) (q : Nat)
    (hq : q ≤ tp.graph.index_counter) :
    (buildChildren q tp cs).graph.index_counter =
        tp.graph.index_counter + sizeForest cs ∧
      (buildChildren q tp cs).roots = tp.roots ∧
      (∀ i, i ≤ tp.graph.index_counter →
        (buildChildren q tp cs).graph.nodes i = tp.graph.nodes i) ∧
      (∀ i, i ≤ tp.graph.index_counter → i ≠ q →
        (buildChildren q tp cs).graph.edges i = tp.graph.edges i) ∧
      ∃ ids, (buildChildren q tp cs).graph.edges q = tp.graph.edges q ++ ids ∧
        List.Forall₂ (PSpec (buildChildren q tp cs).graph tp.graph.index_counter
          (tp.graph.index_counter + sizeForest cs)) ids cs := by
  cases cs with
  | nil =>
    refine ⟨?_, rfl, fun i _ => rfl, fun i _ _ => rfl, ⟨[], ?_, List.Forall₂.nil⟩⟩
    · show tp.graph.index_counter = tp.graph.index_counter + sizeForest []
      rw [sizeForest, Nat.add_zero]
    · show tp.graph.edges q = tp.graph.edges q ++ ([] : List Nat)
      rw [List.append_nil]
  | cons t rest =>
    have hunfold : buildChildren q tp (t :: rest) =
        buildChildren q (buildNode (some q) tp t) rest := rfl
    obtain ⟨h1c, h1roots, h1n, h1e, h1ep, h1P⟩ := buildNode_some_char t tp q hq
    have hq1 : q ≤ (buildNode (some q) tp t).graph.index_counter := by
      rw [h1c]
      omega
    have h2 := buildChildren_char rest (buildNode (some q) tp t) q hq1
    rw [h1c] at h2
    obtain ⟨h2c, h2roots, h2n, h2e, ids2, h2eq, h2F⟩ := h2
    rw [hunfold]
    have hsf : sizeForest (t :: rest) = LTree.size t + sizeForest rest := by
      rw [sizeForest]
    refine ⟨?_, ?_, ?_, ?_,
      ⟨(tp.graph.index_counter + 1) :: ids2, ?_, List.Forall₂.cons ?_ ?_⟩⟩
    · rw [h2c, hsf]
      omega
    · rw [h2roots, h1roots]
    · intro i hi
      rw [h2n i (by omega), h1n i hi]
    · intro i hi hiq
      rw [h2e i (by omega) hiq, h1e i hi hiq]
    · rw [h2eq, h1ep, List.append_assoc]
      rfl
    · have hagree : AgreeOn (buildChildren q (buildNode (some q) tp t) rest).graph
          (buildNode (some q) tp t).graph tp.graph.index_counter
          (tp.graph.index_counter + LTree.size t) := by
        intro i hgt hle
        exact ⟨h2n i (by omega), h2e i (by omega) (by omega)⟩
      have htrans := PSpec_transport _ _ _ _ _ _ hagree h1P
      exact PSpec_mono _ _ _ _ _ _ _ (le_refl _) (by rw [hsf]; omega) htrans
    · refine h2F.imp ?_
      intro id tt h
      exact PSpec_mono _ _ _ _ _ _ _ (by omega) (by rw [hsf]; omega) h
termination_by sizeOf cs
end

theorem LTree.size_pos (t : LTree) : 1 ≤ LTree.size t := by
  cases t with
  | node label children =>
    rw [LTree.size]
    omega

theorem buildNode_none_char (t : LTree) (tp : TreePrinter) :
    (buildNode none tp t).graph.index_counter =
        tp.graph.index_counter + LTree.size t ∧
      (buildNode none tp t).roots = tp.roots ++ [tp.graph.index_counter + 1] ∧
      (∀ i, i ≤ tp.graph.index_counter →
        (buildNode none tp t).graph.nodes i = tp.graph.nodes i) ∧
      (∀ i, i ≤ tp.graph.index_counter →
        (buildNode none tp t).graph.edges i = tp.graph.edges i) ∧
      PSpec (buildNode none tp t).graph tp.graph.index_counter
        (tp.graph.index_counter + LTree.size t) (tp.graph.index_counter + 1) t := by
  cases t with
  | node label children =>
    have hunfold : buildNode none tp (LTree.node label children) =
        buildChildren (tp.graph.index_counter + 1) (tp.add_line label).1 children := rfl
    have h1c : (tp.add_line label).1.graph.index_counter =
        tp.graph.index_counter + 1 := rfl
    have h1roots : (tp.add_line label).1.roots =
        tp.roots ++ [tp.graph.index_counter + 1] := rfl
    have h1n : ∀ i, i ≠ tp.graph.index_counter + 1 →
        (tp.add_line label).1.graph.nodes i = tp.graph.nodes i := by
      intro i hi
      show (if i = tp.graph.index_counter + 1 then some label else tp.graph.nodes i) =
        tp.graph.nodes i
      rw [if_neg hi]
    have h1nself : (tp.add_line label).1.graph.nodes (tp.graph.index_counter + 1) =
        some label := by
      show (if tp.graph.index_counter + 1 = tp.graph.index_counter + 1 then some label
        else tp.graph.nodes (tp.graph.index_counter + 1)) = some label
      rw [if_pos rfl]
    have h1e : ∀ i, i ≠ tp.graph.index_counter + 1 →
        (tp.add_line label).1.graph.edges i = tp.graph.edges i := by
      intro i hi
      show (if i = tp.graph.index_counter + 1 then []
        else tp.graph.edges i) = tp.graph.edges i
      rw [if_neg hi]
    have h1eself : (tp.add_line label).1.graph.edges (tp.graph.index_counter + 1) =
        [] := by
      show (if tp.graph.index_counter + 1 = tp.graph.index_counter + 1 then []
        else tp.graph.edges (tp.graph.index_counter + 1)) = []
      rw [if_pos rfl]
    have h2 := buildChildren_char children (tp.add_line label).1
      (tp.graph.index_counter + 1) (le_of_eq h1c.symm)
    rw [h1c] at h2
    obtain ⟨h2c, h2roots, h2n, h2e, ids, h2eq, h2F⟩ := h2
    rw [hunfold]
    have hsz : LTree.size (LTree.node label children) = 1 + sizeForest children := by
      rw [LTree.size]
    refine ⟨?_, ?_, ?_, ?_, ?_⟩
    · rw [h2c, hsz]
      omega
    · rw [h2roots, h1roots]
    · intro i hi
      rw [h2n i (by omega), h1n i (by omega)]
    · intro i hi
      rw [h2e i (by omega) (by omega), h1e i (by omega)]
    · have hnode2 : (buildChildren (tp.graph.index_counter + 1)
          (tp.add_line label).1 children).graph.nodes
          (tp.graph.index_counter + 1) = some label := by
        rw [h2n (tp.graph.index_counter + 1) (le_refl _), h1nself]
      have hedge2 : (buildChildren (tp.graph.index_counter + 1)
          (tp.add_line label).1 children).graph.edges
          (tp.graph.index_counter + 1) = ids := by
        rw [h2eq, h1eself]
        rfl
      have hassemble := pspec_assemble _ tp.graph.index_counter label children ids
        hnode2 hedge2 h2F
      exact PSpec_mono _ _ _ _ _ _ _ (le_refl _) (by rw [hsz]; omega) hassemble

theorem buildRoots_char (fs : List LTree) : ∀ (tp : TreePrinter),
    (buildRoots tp fs).graph.index_counter = tp.graph.index_counter + sizeForest fs ∧
      (∀ i, i ≤ tp.graph.index_counter →
        (buildRoots tp fs).graph.nodes i = tp.graph.nodes i ∧
        (buildRoots tp fs).graph.edges i = tp.graph.edges i) ∧
      ∃ ids, (buildRoots tp fs).roots = tp.roots ++ ids ∧
        List.Forall₂ (fun id t =>
          LTree.size t ≤ sizeForest fs ∧
          PSpec (buildRoots tp fs).graph tp.graph.index_counter
            (tp.graph.index_counter + sizeForest fs) id t) ids fs := by
  induction fs with
  | nil =>
    intro tp
    refine ⟨?_, fun i _ => ⟨rfl, rfl⟩, ⟨[], ?_, List.Forall₂.nil⟩⟩
    · show tp.graph.index_counter = tp.graph.index_counter + sizeForest []
      rw [sizeForest, Nat.add_zero]
    · show tp.roots = tp.roots ++ ([] : List Nat)
      rw [List.append_nil]
  | cons t rest ih =>
    intro tp
    have hunfold : buildRoots tp (t :: rest) = buildRoots (buildNode none tp t) rest := rfl
    obtain ⟨h1c, h1roots, h1n, h1e, h1P⟩ := buildNode_none_char t tp
    have h2 := ih (buildNode none tp t)
    rw [h1c] at h2
    obtain ⟨h2c, h2agree, ids2, h2roots, h2F⟩ := h2
    rw [hunfold]
    have hsf : sizeForest (t :: rest) = LTree.size t + sizeForest rest := by
      rw [sizeForest]
    refine ⟨?_, ?_, ⟨(tp.graph.index_counter + 1) :: ids2, ?_, List.Forall₂.cons ?_ ?_⟩⟩
    · rw [h2c, hsf]
      omega
    · intro i hi
      obtain ⟨ha, hb⟩ := h2agree i (by omega)
      exact ⟨ha.trans (h1n i hi), hb.trans (h1e i hi)⟩
    · rw [h2roots, h1roots, List.append_assoc]
      rfl
    · refine ⟨by rw [hsf]; omega, ?_⟩
      have hagree : AgreeOn (buildRoots (buildNode none tp t) rest).graph
          (buildNode none tp t).graph tp.graph.index_counter
          (tp.graph.index_counter + LTree.size t) :=
        fun i _ hle => h2agree i hle
      have htrans := PSpec_transport _ _ _ _ _ _ hagree h1P
      exact PSpec_mono _ _ _ _ _ _ _ (le_refl _) (by rw [hsf]; omega) htrans
    · refine h2F.imp ?_
      intro id tt h
      refine ⟨by rw [hsf]; omega, ?_⟩
      exact PSpec_mono _ _ _ _ _ _ _ (by omega) (by rw [hsf]; omega) h.2

/-- C9: the graph-based tree renderer refines the specification renderer
on every forest built through the handle interface: roots are rendered in
insertion order and children depth-first in insertion order; a node is
rendered with the "last" connector exactly when it is the final child of
its parent (or the final root); and the indent of a subtree carries a
vertical continuation bar for each ancestor that was not a last sibling
and a blank segment for each ancestor that was (these clauses are the
definition of `specLines`/`specForest`). -/
theorem claim_C9 (f : List LTree) : (buildForest f).render = specForest f := by
  obtain ⟨hc, hagree, ids, hroots, hF⟩ := buildRoots_char f TreePrinter.empty
  have hc0 : TreePrinter.empty.graph.index_counter = 0 := rfl
  rw [hc0] at hc
  have hr0 : TreePrinter.empty.roots = [] := rfl
  rw [hr0, List.nil_append] at hroots
  show joinStrings ((buildRoots TreePrinter.empty f).roots.enum.map
      (fun p => printLine (buildRoots TreePrinter.empty f).graph
        (buildRoots TreePrinter.empty f).graph.index_counter p.2 ""
        (p.1 == (buildRoots TreePrinter.empty f).roots.length - 1))) = specForest f
  rw [hroots, specForest_eq_lastJoin]
  refine (joinEnumLast (fun id il => printLine (buildRoots TreePrinter.empty f).graph
      (buildRoots TreePrinter.empty f).graph.index_counter id "" il) ids).trans ?_
  refine lastJoin_congr _ _ _ _ (hF.imp ?_)
  intro id t h
  intro il
  exact h.2 (buildRoots TreePrinter.empty f).graph
    (buildRoots TreePrinter.empty f).graph.index_counter [] il
    (fun i _ _ => ⟨rfl, rfl⟩) (by omega)
